import Mathlib

/-!
Verification of the name-parsing and classification engine of the
FLCloud rename tool.  The definitions below are a shallow embedding of
the final version of the program (`FLCloud_Rename_GUI.py`): pure Python
string functions become Lean functions on `String`/`List Char`, the
regular expressions of the source are hand-compiled into equivalent
scanners, and the filesystem-walking orchestrator `process_folder`
becomes a function from an abstract directory snapshot to the list of
filesystem effects (directory creations and file copies) it performs,
with a raised exception modelled as `Except.error`.

Python string semantics are modelled at the ASCII level (the casing,
whitespace and word-character classes below are the ASCII fragments of
the Unicode-aware Python originals); every input appearing in the
specification and its examples is ASCII.
-/

/-! ### ASCII character classes (models of Python `str` / `re` classes) -/

def isSpaceC (c : Char) : Bool :=
  c = ' ' ∨ c = '\t' ∨ c = '\n' ∨ c = '\r' ∨ c = '\x0b' ∨ c = '\x0c'

def isDigitC (c : Char) : Bool := '0' ≤ c ∧ c ≤ '9'

def isAsciiAlpha (c : Char) : Bool := ('A' ≤ c ∧ c ≤ 'Z') ∨ ('a' ≤ c ∧ c ≤ 'z')

/-- Model of the `\w` class of Python regular expressions (ASCII fragment). -/
def isWordC (c : Char) : Bool := isAsciiAlpha c ∨ isDigitC c ∨ c = '_'

def lowC (c : Char) : Char :=
  if 'A' ≤ c ∧ c ≤ 'Z' then Char.ofNat (c.toNat + 32) else c

def upC (c : Char) : Char :=
  if 'a' ≤ c ∧ c ≤ 'z' then Char.ofNat (c.toNat - 32) else c

/-! ### Python string primitives -/

def pyLower (s : String) : String := String.mk (s.data.map lowC)

def pyUpper (s : String) : String := String.mk (s.data.map upC)

def ltrimL (l : List Char) : List Char := l.dropWhile isSpaceC

def rtrimL (l : List Char) : List Char := (l.reverse.dropWhile isSpaceC).reverse

def stripL (l : List Char) : List Char := rtrimL (ltrimL l)

/-- Model of Python `str.strip()` (ASCII whitespace). -/
def pyStrip (s : String) : String := String.mk (stripL s.data)

/-- Model of `re.sub(r"\s+", " ", s)`: every maximal run of whitespace
becomes a single space.  The boolean argument records whether the
previous character belonged to a whitespace run. -/
def collapseGo : Bool → List Char → List Char
  | _, [] => []
  | inRun, c :: rest =>
    if isSpaceC c then
      if inRun then collapseGo true rest else ' ' :: collapseGo true rest
    else c :: collapseGo false rest

def collapseWs (s : String) : String := String.mk (collapseGo false s.data)

/-- Model of Python `str.split()` (split on whitespace runs, no empties). -/
def splitWsGo : List Char → List Char → List String
  | acc, [] => if acc = [] then [] else [String.mk acc.reverse]
  | acc, c :: rest =>
    if isSpaceC c then
      if acc = [] then splitWsGo [] rest
      else String.mk acc.reverse :: splitWsGo [] rest
    else splitWsGo (c :: acc) rest

def pySplitWs (s : String) : List String := splitWsGo [] s.data

def joinSp : List String → String
  | [] => ""
  | [s] => s
  | s :: rest => s ++ " " ++ joinSp rest

/-- Model of Python `str.title()` (ASCII): a letter following a
non-letter is upper-cased, a letter following a letter is lower-cased. -/
def titleGo : Bool → List Char → List Char
  | _, [] => []
  | prev, c :: rest =>
    if isAsciiAlpha c then (if prev then lowC c else upC c) :: titleGo true rest
    else c :: titleGo false rest

def pyTitle (s : String) : String := String.mk (titleGo false s.data)

def mapChars (f : Char → Option Char) (s : String) : String :=
  String.mk (s.data.filterMap f)

/-- Model of `str.replace(" ", "")`. -/
def removeSpaces (s : String) : String :=
  mapChars (fun c => if c = ' ' then none else some c) s

/-- Model of `str.replace(" ", "_")`. -/
def spacesToUnderscores (s : String) : String :=
  String.mk (s.data.map (fun c => if c = ' ' then '_' else c))

/-- Model of Python `str.replace(old, new)` for a non-empty `old`:
left-to-right, non-overlapping replacement of every occurrence. -/
def replaceGo (old new : List Char) : Nat → List Char → List Char
  | 0, l => l
  | _ + 1, [] => []
  | fuel + 1, c :: rest =>
    if old.isPrefixOf (c :: rest) then
      new ++ replaceGo old new fuel (rest.drop (old.length - 1))
    else
      c :: replaceGo old new fuel rest

def pyReplace (s old new : String) : String :=
  String.mk (replaceGo old.data new.data s.data.length s.data)

/-! ### The dash separator `DASH_SPLIT = re.compile(r"\s*-\s*")` -/

/-- Model of `DASH_SPLIT.split(s)` (full split).  Whitespace adjacent to
each dash is consumed by the match; the boolean flag is true while we
are still inside the whitespace consumed by the previous dash. -/
def dashSplitGo : Bool → List Char → List Char → List (List Char)
  | _, acc, [] => [acc.reverse]
  | dropLead, acc, c :: rest =>
    if c = '-' then (acc.dropWhile isSpaceC).reverse :: dashSplitGo true [] rest
    else if dropLead ∧ isSpaceC c ∧ acc = [] then dashSplitGo true acc rest
    else dashSplitGo false (c :: acc) rest

def dashSplitAll (s : String) : List String :=
  (dashSplitGo false [] s.data).map String.mk

/-- Model of `DASH_SPLIT.split(s, maxsplit=1)`. -/
def ds1Go : List Char → List Char → List String
  | acc, [] => [String.mk acc.reverse]
  | acc, c :: rest =>
    if c = '-' then
      [String.mk (acc.dropWhile isSpaceC).reverse,
       String.mk (rest.dropWhile isSpaceC)]
    else ds1Go (c :: acc) rest

def dashSplit1 (s : String) : List String := ds1Go [] s.data

/-! ### Canonical instrument tables (module constants of the source) -/

def CORE_SET : List String :=
  ["Bass", "Electric Bass", "Synth Bass", "Upright Bass",
   "Guitar", "Acoustic Guitar", "Electric Guitar",
   "Electric_Piano",
   "Lead", "Strings", "Choir", "Clavi",
   "Piano", "Organ", "Pad", "Pluck", "Arp", "Brass", "Synth", "Vibraphone",
   "Full", "Flute",
   "Bells", "Mallets", "Kalimba", "Vocals",
   "Glockenspiel", "Horns", "Keys"]

def INSTRUMENT_MAP : List (String × String) :=
  [("Bassline", "Bass"), ("Bass Line", "Bass"), ("Sub Bass", "Bass"), ("Bass", "Bass"),
   ("Electric Bass", "Bass"), ("Upright Bass", "Bass"), ("Synth Bass", "Bass"),
   ("Rhodes", "Electric_Piano"), ("Rhodes Piano", "Electric_Piano"),
   ("E. Piano", "Electric_Piano"), ("EP", "Electric_Piano"),
   ("Electric Piano", "Electric_Piano"),
   ("Guitar", "Guitar"),
   ("Electric Guitar", "Guitar"),
   ("Acoustic Guitar", "Guitar"),
   ("Lead", "Lead"),
   ("Strings", "Strings"), ("String", "Strings"),
   ("Choir", "Choir"),
   ("Clavi", "Clavi"),
   ("Piano", "Piano"), ("Grand Piano", "Piano"),
   ("Organ", "Organ"),
   ("Pad", "Pad"),
   ("Pluck", "Pluck"),
   ("Arp", "Arp"),
   ("Brass", "Brass"),
   ("Synth", "Synth"),
   ("Vibraphone", "Vibraphone"), ("Vibes", "Vibraphone"),
   ("Flute", "Flute"),
   ("Bell", "Bells"), ("Bells", "Bells"),
   ("Mallets", "Mallets"),
   ("Kalimba", "Kalimba"),
   ("Vocals", "Vocals"), ("Vox", "Vocals"), ("Vocal", "Vocals"),
   ("Keys", "Keys"),
   ("Horn", "Horns"), ("Horns", "Horns"),
   ("Glock", "Glockenspiel"), ("Glockenspiel", "Glockenspiel"),
   ("Full", "Full")]

/-- `CORE_PRIORITY.get(c, 2)`: Bass has priority 0, Guitar 1, default 2. -/
def corePriorityGet (c : String) : Nat :=
  match [("Bass", 0), ("Guitar", 1)].find? (fun kv => kv.1 = c) with
  | some kv => kv.2
  | none => 2

/-- `canon_core`: first case-insensitive hit in `INSTRUMENT_MAP`
(dictionary insertion order), else the title-cased raw token. -/
def canon_core (token : String) : String :=
  match INSTRUMENT_MAP.find? (fun kv => pyLower token = pyLower kv.1) with
  | some kv => kv.2
  | none => pyTitle token

def isBassCore (core : String) : Bool :=
  core = "Bass" ∨ core = "Electric Bass" ∨ core = "Synth Bass" ∨ core = "Upright Bass"

/-! ### `_specialize_bass_guitar_core` -/

/-- The source helper `remove_words` (local to
`_specialize_bass_guitar_core`): keep the words whose lower-casing is
not among the lower-cased removal keywords, re-join and title-case. -/
def remove_words (words : List String) (toRemove : List String) : String :=
  let rem := toRemove.map pyLower
  let kept := words.filter (fun w => ¬ rem.contains (pyLower w))
  if kept = [] then "" else pyTitle (joinSp kept)

def specialize_bass_guitar_core (core adj : String) : String × String :=
  if adj = "" then (core, adj)
  else
    let words := (pySplitWs adj).filter (fun w => w ≠ "")
    let low := words.map pyLower
    if core = "Bass" then
      if low.contains "synth" then ("Synth Bass", remove_words words ["Synth"])
      else if low.contains "upright" then ("Upright Bass", remove_words words ["Upright"])
      else if low.contains "electric" ∨ low.contains "guitar" then
        ("Electric Bass", remove_words words ["Electric", "Guitar"])
      else ("Bass", adj)
    else if core = "Guitar" then
      if low.contains "acoustic" ∨ low.contains "nylon" then
        ("Acoustic Guitar", remove_words words ["Acoustic", "Nylon"])
      else if low.contains "electric" then ("Electric Guitar", remove_words words ["Electric"])
      else ("Guitar", adj)
    else (core, adj)

/-! ### The Electric-Piano special case
`re.search(r"(?i)\b(rhodes|e\.?\s*piano|^ep$|electric\s+piano)\b", s)` -/

/-- Case-insensitive literal match: returns the remainder on success. -/
def matchCI : List Char → List Char → Option (List Char)
  | [], cs => some cs
  | _ :: _, [] => none
  | p :: ps, c :: cs => if lowC c = lowC p then matchCI ps cs else none

/-- A word boundary follows: the remainder is empty or starts with a
non-word character.  (Every alternative of the group ends in a word
character, so this is the whole `\b` condition there.) -/
def boundaryAfter : List Char → Bool
  | [] => true
  | c :: _ => ¬ isWordC c

/-- Does one alternative of the Electric-Piano group match at this
suffix?  `isStart` tells whether the suffix is the whole string
(position 0), `whole` is the full (collapsed) string for the anchored
`^ep$` alternative. -/
def epAltRhodes (suffix : List Char) : Bool :=
  match matchCI "rhodes".data suffix with
  | some rest => boundaryAfter rest
  | none => false

def epAltEPiano (suffix : List Char) : Bool :=
  match matchCI "e".data suffix with
  | some rest1 =>
    let rest2 := match rest1 with
      | '.' :: r => r
      | r => r
    let rest3 := rest2.dropWhile isSpaceC
    (match matchCI "piano".data rest3 with
     | some rest4 => boundaryAfter rest4
     | none => false)
  | none => false

def epAltElectricPiano (suffix : List Char) : Bool :=
  match matchCI "electric".data suffix with
  | some rest1 =>
    ((rest1.takeWhile isSpaceC).isEmpty = false) &&
    (match matchCI "piano".data (rest1.dropWhile isSpaceC) with
     | some rest4 => boundaryAfter rest4
     | none => false)
  | none => false

def epAltAt (isStart : Bool) (whole : List Char) (suffix : List Char) : Bool :=
  epAltRhodes suffix || epAltEPiano suffix ||
  (isStart && whole.map lowC == "ep".data) ||
  epAltElectricPiano suffix

/-- `m.start()` of the Electric-Piano search: the first position with a
word boundary before it at which some alternative matches.  `prevWord`
records whether the previous character is a word character (every
alternative begins with a letter, so the boundary condition is exactly
`¬ prevWord`). -/
def epSearchGo (whole : List Char) : Bool → List Char → Nat → Option Nat
  | _, [], _ => none
  | prevWord, c :: rest, i =>
    if ¬ prevWord ∧ epAltAt (i = 0) whole (c :: rest) then some i
    else epSearchGo whole (isWordC c) rest (i + 1)

def epSearchStart (s : String) : Option Nat := epSearchGo s.data false s.data 0

/-! ### Priority selection loop of `normalize_instrument_phrase` -/

/-- One iteration of the `for i, c in core_positions` loop.  The state is
`(chosen_idx, chosen_core, best_priority)`, `none` before the first
iteration. -/
def pickStep (acc : Option (Nat × String × Nat)) (ic : Nat × String) :
    Option (Nat × String × Nat) :=
  let pr := corePriorityGet ic.2
  match acc with
  | none => some (ic.1, ic.2, pr)
  | some (ci, cc, bp) =>
    if pr < bp then some (ic.1, ic.2, pr)
    else if pr = bp ∧ ic.1 > ci then some (ic.1, ic.2, pr)
    else some (ci, cc, bp)

def pickCore (ps : List (Nat × String)) : Option (Nat × String × Nat) :=
  ps.foldl pickStep none

/-- The `core_positions` list: positions whose canonical token is in
`CORE_SET`. -/
def corePositions (tokens : List String) : List (Nat × String) :=
  (tokens.map canon_core).enum.filter (fun ic => CORE_SET.contains ic.2)

/-- `" ".join(adj_tokens).title() if adj_tokens else ""`. -/
def titleJoin (l : List String) : String :=
  if l = [] then "" else pyTitle (joinSp l)

def normalize_instrument_phrase (phrase : String) : String × String :=
  let s := pyStrip (collapseWs phrase)
  match epSearchStart s with
  | some idx =>
    let before := pyStrip (String.mk (s.data.take idx))
    ("Electric_Piano", if before = "" then "" else pyTitle before)
  | none =>
    match pySplitWs s with
    | [] => ("Full", "")
    | [t] => (canon_core t, "")
    | tokens =>
      match pickCore (corePositions tokens) with
      | some (ci, cc, _) =>
        let adj := titleJoin (tokens.eraseIdx ci)
        specialize_bass_guitar_core cc adj
      | none =>
        let whole := canon_core s
        if CORE_SET.contains whole then (whole, "") else (whole, "")

/-! ### File stems and the per-file instrument phrase -/

/-- Index of the last occurrence of a character. -/
def lastIdxOf (c : Char) (cs : List Char) : Option Nat :=
  match cs.reverse.findIdx? (fun x => x = c) with
  | some j => some (cs.length - 1 - j)
  | none => none

/-- Model of `pathlib`: the suffix is `name[i:]` for the last dot index
`i` when `0 < i < len(name) - 1`, else empty. -/
def pySuffixOf (name : String) : String :=
  match lastIdxOf '.' name.data with
  | some i => if 0 < i ∧ i < name.data.length - 1 then String.mk (name.data.drop i) else ""
  | none => ""

/-- Model of `Path(name).stem`: the name minus its suffix. -/
def pyStemOf (name : String) : String :=
  match lastIdxOf '.' name.data with
  | some i => if 0 < i ∧ i < name.data.length - 1 then String.mk (name.data.take i) else name
  | none => name

/-- The raw instrument phrase isolated by `guess_instrument_from_filename`:
everything after the first dash separator of the stripped stem, with the
sentinel `"Full"` when there is no dash or nothing remains. -/
def rawInstrumentPhrase (filename : String) : String :=
  let stem := pyStrip (pyStemOf filename)
  match dashSplit1 stem with
  | [_] => "Full"
  | _ :: p :: _ =>
    let ir := pyStrip p
    if ir = "" then "Full" else ir
  | [] => "Full"

/-- `guess_instrument_from_filename` of the final version: the
`comp_name` parameter is accepted but never consulted (the source reads
only the filename stem). -/
def guess_instrument_from_filename (filename : String) (_comp_name : String) :
    String × String :=
  normalize_instrument_phrase (pyStrip (collapseWs (rawInstrumentPhrase filename)))

/-! ### Key normalization
`re.match(r'^([A-Ga-g])([#bB]?)(?:\s*(maj|MAJ|Maj|min|MIN|m))?$', s)` -/

def rootChars : List Char :=
  ['A', 'B', 'C', 'D', 'E', 'F', 'G', 'a', 'b', 'c', 'd', 'e', 'f', 'g']

def qualStrs : List String := ["maj", "MAJ", "Maj", "min", "MIN", "m"]

/-- The optional accidental group `([#bB]?)`: the consumed group text
and the remaining characters. -/
def parseAcc : List Char → String × List Char
  | c :: rs => if c = '#' ∨ c = 'b' ∨ c = 'B' then (String.mk [c], rs) else ("", c :: rs)
  | [] => ("", [])

/-- Hand-compiled version of the anchored key regular expression; on a
match it returns the three groups (root letter, accidental, optional
quality token). -/
def parseKeyChars : List Char → Option (Char × String × Option String)
  | [] => none
  | r :: rest =>
    if r ∈ rootChars then
      let ar := parseAcc rest
      match ar.2 with
      | [] => some (r, ar.1, none)
      | _ :: _ =>
        let qs := String.mk (ar.2.dropWhile isSpaceC)
        if qs ∈ qualStrs then some (r, ar.1, some qs) else none
    else none

def parseKey (s : String) : Option (Char × String × Option String) :=
  parseKeyChars s.data

def FLAT_TO_SHARP : List (String × String) :=
  [("Ab", "G#"), ("Bb", "A#"), ("Db", "C#"), ("Eb", "D#"), ("Gb", "F#")]

def charAt0 (s : String) (dflt : Char) : Char :=
  match s.data with
  | c :: _ => c
  | [] => dflt

/-- The body of `normalize_key` after a successful grammar match. -/
def keyAssemble (r : Char) (accidental : String) (qual : Option String) : String :=
  let root := upC r
  let isMinor : Bool :=
    match qual with
    | some q =>
      let ql := pyLower q
      ql = "m" ∨ ql = "min"
    | none => false
  let (root2, acc2) : Char × String :=
    if pyLower accidental = "b" then
      match FLAT_TO_SHARP.find? (fun kv => kv.1 = String.mk [root] ++ "b") with
      | some kv => (charAt0 kv.2 root, "#")
      | none => (root, "")
    else (root, accidental)
  let rootStr := String.mk [root2] ++ (if acc2 = "#" then acc2 else "")
  rootStr ++ (if isMinor then "min" else "maj")

def normalize_key (key_raw : String) : String :=
  if key_raw = "" then key_raw
  else
    let s := pyStrip key_raw
    match parseKey s with
    | none => s
    | some (r, acc, q) => keyAssemble r acc q

/-! ### Composition folder parsing -/

/-- First match of `re.search(r"(\d+(?:\.\d+)?)", s)`: the leftmost
maximal digit run with an optional fractional part. -/
def findDecimalGo : List Char → Option String
  | [] => none
  | c :: rest =>
    if isDigitC c then
      let ds := rest.takeWhile isDigitC
      let after := rest.dropWhile isDigitC
      let frac : List Char :=
        match after with
        | '.' :: a2 =>
          let fd := a2.takeWhile isDigitC
          if fd = [] then [] else '.' :: fd
        | _ => []
      some (String.mk (c :: ds ++ frac))
    else findDecimalGo rest

def findDecimal (s : String) : Option String := findDecimalGo s.data

def parse_comp_folder (folder_name : String) : String × Option String × Option String :=
  let parts := dashSplitAll folder_name
  let raw_comp := match parts with
    | [] => pyStrip folder_name
    | p :: _ => pyStrip p
  let tokens := pySplitWs raw_comp
  let comp :=
    if 3 ≤ tokens.length then
      let c := pyStrip (joinSp (tokens.drop 2))
      if c = "" then raw_comp else c
    else raw_comp
  let key := match parts with
    | _ :: k :: _ => some (pyStrip k)
    | _ => none
  let bpm := match parts with
    | _ :: _ :: b :: _ =>
      let raw_bpm := pyStrip b
      match findDecimal raw_bpm with
      | some n => some (n ++ "bpm")
      | none => some (pyReplace (pyReplace raw_bpm "BPM" "bpm") "Bpm" "bpm")
    | _ => none
  (comp, key, bpm)

/-- First match of `re.search(r"(\d+(?:\.\d+)?)(?:\s*)BPM", name, re.IGNORECASE)`,
returning the numeral group: a digit run with optional fraction,
optional whitespace, then `bpm` case-insensitively. -/
def findBpmGo : List Char → Option String
  | [] => none
  | c :: rest =>
    if isDigitC c then
      let ds := rest.takeWhile isDigitC
      let after := rest.dropWhile isDigitC
      let (frac, after2) : List Char × List Char :=
        match after with
        | '.' :: a2 =>
          let fd := a2.takeWhile isDigitC
          if fd = [] then ([], after) else ('.' :: fd, a2.dropWhile isDigitC)
        | _ => ([], after)
      let after3 := after2.dropWhile isSpaceC
      match matchCI "bpm".data after3 with
      | some _ => some (String.mk (c :: ds ++ frac))
      | none => findBpmGo rest
    else findBpmGo rest

def findBpmInName (name : String) : Option String := findBpmGo name.data

/-! ### Pack abbreviation
`re.sub(r"(?i)^pelham\s*(?:&|and)\s*junior\s*", "", pack_raw)` -/

def stripPelhamPrefix (s : String) : String :=
  match matchCI "pelham".data s.data with
  | some r1 =>
    let r2 := r1.dropWhile isSpaceC
    let afterAmp : Option (List Char) :=
      match r2 with
      | '&' :: r3 => some r3
      | _ => matchCI "and".data r2
    match afterAmp with
    | some r3 =>
      let r4 := r3.dropWhile isSpaceC
      match matchCI "junior".data r4 with
      | some r5 => String.mk (r5.dropWhile isSpaceC)
      | none => s
    | none => s
  | none => s

def pack_abbrev_from_parent (parentName : String) : String :=
  let parts := dashSplit1 parentName
  let pack_raw := match parts with
    | _ :: p :: _ => p
    | _ => parentName
  removeSpaces (pyStrip (stripPelhamPrefix pack_raw))

/-! ### Two-pass multi-track synthesis -/

/-- Pass 1 of `process_folder`: collect the distinct non-`"Full"` cores
of the (sorted) wav names in first-encounter order. -/
def collectSeenCores (files : List String) (comp_name : String) : List String :=
  files.foldl
    (fun seen w =>
      let core := (guess_instrument_from_filename w comp_name).1
      if core = "Full" then seen
      else if seen.contains core then seen
      else seen ++ [core])
    []

/-- The `multi_cores` synthesis: up to two non-bass cores in encounter
order, then the first bass-family core, kept last. -/
def multiCoresOf (seen : List String) : List String :=
  let bass_core := seen.find? (fun c => isBassCore c)
  let non_bass := seen.filter (fun c => ¬ isBassCore c)
  let m1 : List String :=
    match non_bass with
    | [] => []
    | [a] => [a]
    | a :: b :: _ => [a, b]
  match bass_core with
  | some b => m1 ++ [b]
  | none => m1

def folderMultiCores (files : List String) (comp_name : String) : List String :=
  multiCoresOf (collectSeenCores files comp_name)

/-! ### The batch orchestrator `process_folder`

The filesystem is abstracted into a snapshot: the resolved source path,
whether it exists and is a directory, and its immediate subdirectories
with their entry names.  Directory creations and file copies become an
effect trace; the progress callback (absent caller) is pure reporting
and produces no effect. -/

structure CompFolder where
  name : String
  entries : List String
  deriving DecidableEq

structure BatchInput where
  sourcePath : List String
  sourceExists : Bool
  sourceIsDir : Bool
  folders : List CompFolder
  deriving DecidableEq

inductive FSEffect where
  | mkdir : List String → FSEffect
  | copy : List String → List String → FSEffect
  deriving DecidableEq

/-- Python string (code-point) lexicographic order, as used by
`sorted` on the names at hand. -/
def lexLe : List Char → List Char → Bool
  | [], _ => true
  | _ :: _, [] => false
  | a :: as, b :: bs => if a < b then true else if a = b then lexLe as bs else false

def strLe (a b : String) : Bool := lexLe a.data b.data

def insSorted (le : α → α → Bool) (x : α) : List α → List α
  | [] => [x]
  | y :: ys => if le x y then x :: y :: ys else y :: insSorted le x ys

/-- Stable insertion sort, modelling Python `sorted`. -/
def sortedBy (le : α → α → Bool) (l : List α) : List α :=
  l.foldr (insSorted le) []

def isWavName (n : String) : Bool := pyLower (pySuffixOf n) = ".wav"

/-- The output filename computed in pass 2 for one wav file. -/
def outputName (pack_abbrev comp_name : String) (key : Option String)
    (bpm : Option String) (multi : List String) (w : String) : String :=
  let core := (guess_instrument_from_filename w comp_name).1
  let adj := (guess_instrument_from_filename w comp_name).2
  let bpm_final := match bpm with
    | some b => b
    | none =>
      match findBpmInName w with
      | some n => n ++ "bpm"
      | none => "bpm"
  let key_final := match key with
    | some k => if k = "" then "" else normalize_key k
    | none => ""
  let descriptor := "[[" ++ removeSpaces comp_name ++ "]]"
  let parts1 := if core = "Full" then ["P&J", pack_abbrev] ++ multi ++ ["Multi"]
    else ["P&J", pack_abbrev, core] ++ (if adj = "" then [] else [adj])
  let parts2 := parts1 ++ [descriptor] ++
    (if bpm_final = "" then [] else [bpm_final]) ++
    (if key_final = "" then [] else [key_final])
  String.intercalate "_" (parts2.map spacesToUnderscores) ++ ".wav"

/-- The effects produced for one composition folder. -/
def folderEffects (srcPath dstDir : List String) (pack_abbrev : String)
    (folder : CompFolder) : List FSEffect :=
  let parsed := parse_comp_folder folder.name
  let comp_name := parsed.1
  let key := parsed.2.1
  let bpm := parsed.2.2
  let compDst := dstDir ++ [folder.name]
  let comp_wavs := sortedBy strLe (folder.entries.filter isWavName)
  let multi := folderMultiCores comp_wavs comp_name
  FSEffect.mkdir compDst ::
    comp_wavs.map (fun w =>
      FSEffect.copy (srcPath ++ [folder.name, w])
        (compDst ++ [outputName pack_abbrev comp_name key bpm multi w]))

/-- `process_folder`: validate the source path, derive the pack
abbreviation (or take the caller override), create the `Samples`
destination, then walk the sorted composition folders.  A raised
`RuntimeError` is the `Except.error` case, produced before any
filesystem effect. -/
def process_folder (inp : BatchInput) (packPrefix : Option String) :
    Except String (List FSEffect) :=
  if ¬ (inp.sourceExists ∧ inp.sourceIsDir) then
    Except.error ("Path not found or not a directory: " ++
      String.intercalate "/" inp.sourcePath)
  else
    let parentPath := inp.sourcePath.dropLast
    let parentName := match parentPath.getLast? with
      | some n => n
      | none => ""
    let derived := pack_abbrev_from_parent parentName
    let pack_abbrev := match packPrefix with
      | some p => if pyStrip p = "" then derived else pyUpper (pyStrip p)
      | none => derived
    let dstDir := parentPath ++ ["Samples"]
    let subfolders := sortedBy (fun a b => strLe a.name b.name) inp.folders
    Except.ok (FSEffect.mkdir dstDir ::
      subfolders.foldl
        (fun acc folder => acc ++ folderEffects inp.sourcePath dstDir pack_abbrev folder)
        [])

/-- The effect trace of a run: an aborted run performs no effect. -/
def effectsOf : Except String (List FSEffect) → List FSEffect
  | Except.ok l => l
  | Except.error _ => []

instance {ε α : Type} [DecidableEq ε] [DecidableEq α] : DecidableEq (Except ε α) :=
  fun x y =>
    match x, y with
    | Except.ok a, Except.ok b =>
      if h : a = b then Decidable.isTrue (by rw [h])
      else Decidable.isFalse (by intro hh; cases hh; exact h rfl)
    | Except.ok _, Except.error _ => Decidable.isFalse (by intro hh; cases hh)
    | Except.error _, Except.ok _ => Decidable.isFalse (by intro hh; cases hh)
    | Except.error e, Except.error f =>
      if h : e = f then Decidable.isTrue (by rw [h])
      else Decidable.isFalse (by intro hh; cases hh; exact h rfl)

/-! ### Specification-side definitions

The following definitions are worded from the specification / claim
text rather than from the source; each is compared against the
corresponding source-derived definition in a theorem below. -/

/-- The enharmonic table as the specification words it: the flat
spellings Ab, Bb, Db, Eb, Gb map to G#, A#, C#, D#, F# respectively;
any other flat drops to natural. -/
def enharmonicSpec (root : Char) : Option String :=
  if root = 'A' then some "G#"
  else if root = 'B' then some "A#"
  else if root = 'D' then some "C#"
  else if root = 'E' then some "D#"
  else if root = 'G' then some "F#"
  else none

/-- Key normalization as the specification words it, on the three
parsed groups: upper-case the root; quality `m`/`min` (case-insensitive)
gives the `min` suffix, `maj` or an absent quality gives `maj`; a flat
maps through the enharmonic table or drops to natural; a sharp passes
through. -/
def keyNormSpec (r : Char) (accidental : String) (qual : Option String) : String :=
  let root := upC r
  let suffix : String := match qual with
    | none => "maj"
    | some q => if pyLower q = "m" ∨ pyLower q = "min" then "min" else "maj"
  let rootStr : String :=
    if accidental = "b" ∨ accidental = "B" then
      match enharmonicSpec root with
      | some sharp => sharp
      | none => String.mk [root]
    else String.mk [root] ++ accidental
  rootStr ++ suffix

/-- Claim-side keyword scan: does some word of the adjective lower-case
to the keyword? -/
def hasKeyword (adj kw : String) : Bool :=
  (pySplitWs adj).any (fun w => pyLower w = kw)

/-- Claim-side consumption: remove the words whose lower-casing is a
consumed keyword, re-join and title-case the remainder. -/
def dropKeywords (adj : String) (kws : List String) : String :=
  let kept := (pySplitWs adj).filter (fun w => ¬ kws.contains (pyLower w))
  if kept = [] then "" else pyTitle (joinSp kept)

/-- The per-file phrase-isolation rule exactly as claim C5 states it:
everything after the composition-name prefix when the stem matches that
prefix (case-insensitively, with a leading dash separator consumed, as
in the superseded version of the source), otherwise everything after
the first dash separator; the sentinel `"Full"` when nothing remains. -/
def startsWithCI (s pre : String) : Bool :=
  (pyLower pre).data.isPrefixOf (pyLower s).data

def dropLeadingDash (s : String) : String :=
  match s.data.dropWhile isSpaceC with
  | '-' :: r => String.mk (r.dropWhile isSpaceC)
  | _ => s

def claimRawPhrase (filename comp_name : String) : String :=
  let stem := pyStrip (pyStemOf filename)
  if startsWithCI stem comp_name then
    let remainder := dropLeadingDash (String.mk (stem.data.drop comp_name.data.length))
    if remainder = "" then "Full" else remainder
  else
    match dashSplit1 stem with
    | [_] => "Full"
    | _ :: p :: _ => if pyStrip p = "" then "Full" else pyStrip p
    | [] => "Full"

/-- The amended isolation rule: everything after the first dash
character of the stripped stem (whitespace-trimmed), the composition
name playing no part; `"Full"` when there is no dash or nothing
remains. -/
def afterFirstDashSpec (stem : String) : String :=
  match stem.data.dropWhile (fun c => ¬ c = '-') with
  | [] => "Full"
  | _ :: tail =>
    let p := pyStrip (String.mk tail)
    if p = "" then "Full" else p

/-- The multi-track synthesis as claim C2 words it: at most the first
two non-bass cores, followed by the first bass-family core if one
exists. -/
def multiSpecOf (seen : List String) : List String :=
  (seen.filter (fun c => ¬ isBassCore c)).take 2 ++
    (seen.find? (fun c => isBassCore c)).toList

/-- The selection property claim C3 states: the chosen position is a
core-bearing position of lowest priority, rightmost among those of that
priority. -/
def pickedRightmostMin (ps : List (Nat × String)) (i : Nat) (c : String) : Prop :=
  (i, c) ∈ ps ∧
  (∀ jd ∈ ps, corePriorityGet c ≤ corePriorityGet jd.2) ∧
  (∀ jd ∈ ps, corePriorityGet jd.2 = corePriorityGet c → jd.1 ≤ i)

/-- Enumeration of the accidental group values and quality group values
the key grammar can produce. -/
def accStrs : List String := ["", "#", "b", "B"]

def qualOpts : List (Option String) := none :: qualStrs.map some

/-- The concrete batch snapshot of the end-to-end example: one
composition folder `"Sunset Groove - Abm - 92BPM"` holding the single
file `"Sunset Groove - Rhodes.wav"`. -/
def demoInput : BatchInput :=
  { sourcePath := ["Packs", "Loops"]
    sourceExists := true
    sourceIsDir := true
    folders := [{ name := "Sunset Groove - Abm - 92BPM"
                  entries := ["Sunset Groove - Rhodes.wav"] }] }

/-! ## Helper lemmas -/

theorem contains_map_any (f : String → String) (kw : String) (l : List String) :
    (l.map f).contains kw = l.any fun w => f w = kw := by
  induction l with
  | nil => rfl
  | cons a t ih =>
    have hbeq : (kw == f a) = decide (f a = kw) := by
      by_cases h : f a = kw
      · simp [h]
      · simp [h, Ne.symm h]
    simp only [List.map_cons, List.contains_cons, List.any_cons, ih, hbeq]

theorem splitWsGo_ne_nil (l : List Char) :
    ∀ acc, "" ∉ splitWsGo acc l := by
  induction l with
  | nil =>
    intro acc
    by_cases h : acc = []
    · simp [splitWsGo, h]
    · simp only [splitWsGo, if_neg h]
      intro hmem
      rcases List.mem_singleton.mp hmem with he
      apply h
      have : acc.reverse = ([] : List Char) := congrArg String.data he.symm
      simpa using this
  | cons c rest ih =>
    intro acc
    by_cases hs : isSpaceC c
    · by_cases h : acc = []
      · simpa [splitWsGo, hs, h] using ih []
      · simp only [splitWsGo, hs, if_pos rfl, if_neg h, List.mem_cons, if_true]
        rintro (he | hmem)
        · apply h
          have : acc.reverse = ([] : List Char) := congrArg String.data he.symm
          simpa using this
        · exact ih [] hmem
    · simpa [splitWsGo, hs] using ih (c :: acc)

theorem splitWs_filter_ne (s : String) :
    (pySplitWs s).filter (fun w => w ≠ "") = pySplitWs s := by
  apply List.filter_eq_self.mpr
  intro a ha
  have : a ≠ "" := by
    intro he
    exact splitWsGo_ne_nil s.data [] (he ▸ ha)
  simp [this]

/-- The `multi_cores` loop computes: first two non-bass cores, then the
first bass-family core. -/
theorem multiCoresOf_eq (seen : List String) :
    multiCoresOf seen = multiSpecOf seen := by
  unfold multiCoresOf multiSpecOf
  rcases hnb : seen.filter (fun c => ¬ isBassCore c) with _ | ⟨a, _ | ⟨b, t⟩⟩ <;>
    rcases hbc : seen.find? (fun c => isBassCore c) with _ | bc <;>
      simp [Option.toList]

/-! ## Claim C1 -/

/-- C1.  End-to-end: for the composition folder
`"Sunset Groove - Abm - 92BPM"` containing `"Sunset Groove - Rhodes.wav"`,
with pack-prefix override `"DEMO"`, the batch transformer copies the file
to the output name `P&J_DEMO_Electric_Piano_[[SunsetGroove]]_92bpm_G#min.wav`
(after creating the destination directories). -/
theorem c1_end_to_end :
    process_folder demoInput (some "DEMO") =
      Except.ok
        [FSEffect.mkdir ["Packs", "Samples"],
         FSEffect.mkdir ["Packs", "Samples", "Sunset Groove - Abm - 92BPM"],
         FSEffect.copy
           ["Packs", "Loops", "Sunset Groove - Abm - 92BPM", "Sunset Groove - Rhodes.wav"]
           ["Packs", "Samples", "Sunset Groove - Abm - 92BPM",
            "P&J_DEMO_Electric_Piano_[[SunsetGroove]]_92bpm_G#min.wav"]] := by
  decide

/-! ## Claim C2 -/

/-- C2.  For every composition folder the multi-track descriptor equals:
the first at-most-two non-bass cores of the distinct-core list (collected
from the sorted wav names in first-encounter order, `"Full"` files
skipped), followed by the bass-family core when one exists, always last;
and the concrete folder seen as {Guitar, Pad, Bass, Lead} yields
[Guitar, Pad, Bass] with Lead dropped. -/
theorem c2_multi_track_descriptor :
    (∀ files comp_name,
      folderMultiCores files comp_name = multiSpecOf (collectSeenCores files comp_name)) ∧
    collectSeenCores ["00.wav", "01 - Guitar.wav", "02 - Pad.wav", "03 - Bass.wav",
      "04 - Lead.wav"] "Comp" = ["Guitar", "Pad", "Bass", "Lead"] ∧
    folderMultiCores ["00.wav", "01 - Guitar.wav", "02 - Pad.wav", "03 - Bass.wav",
      "04 - Lead.wav"] "Comp" = ["Guitar", "Pad", "Bass"] := by
  refine ⟨fun files comp_name => multiCoresOf_eq _, by decide, by decide⟩

/-! ## Claim C9 -/

/-- C9.  A source path that does not exist or is not a directory makes
the batch abort with the path error, and the run performs no filesystem
effect: no destination directory is created, no file is copied. -/
theorem c9_path_error (inp : BatchInput) (packPrefix : Option String)
    (h : ¬ (inp.sourceExists = true ∧ inp.sourceIsDir = true)) :
    process_folder inp packPrefix =
      Except.error ("Path not found or not a directory: " ++
        String.intercalate "/" inp.sourcePath) ∧
    effectsOf (process_folder inp packPrefix) = [] := by
  unfold process_folder
  rw [if_pos h]
  exact ⟨rfl, rfl⟩

/-- Witness for C9 at a concrete nonexistent source. -/
theorem c9_path_error_witness :
    process_folder
        { sourcePath := ["home", "missing"], sourceExists := false,
          sourceIsDir := false, folders := [] } none =
      Except.error "Path not found or not a directory: home/missing" ∧
    effectsOf (process_folder
        { sourcePath := ["home", "missing"], sourceExists := false,
          sourceIsDir := false, folders := [] } none) = [] := by
  have h := c9_path_error
    { sourcePath := ["home", "missing"], sourceExists := false,
      sourceIsDir := false, folders := [] } none (by decide)
  simpa only [String.intercalate] using h

/-! ## Claim C4 -/

theorem remove_words_drop (s : String) (toRemove kws : List String)
    (h : toRemove.map pyLower = kws) :
    remove_words (pySplitWs s) toRemove = dropKeywords s kws := by
  unfold remove_words dropKeywords
  rw [h]

/-- C4.  Specialization of a winning `Bass` or `Guitar` core by a
case-insensitive scan of the adjective's words, consumed keywords being
removed and the rest re-joined and title-cased; with the concrete
consumption example `"Upright Bass"` ⇒ (`Upright Bass`, `""`). -/
theorem c4_specialization :
    (∀ adj : String,
      specialize_bass_guitar_core "Bass" adj =
        (if hasKeyword adj "synth" then ("Synth Bass", dropKeywords adj ["synth"])
         else if hasKeyword adj "upright" then ("Upright Bass", dropKeywords adj ["upright"])
         else if hasKeyword adj "electric" ∨ hasKeyword adj "guitar" then
           ("Electric Bass", dropKeywords adj ["electric", "guitar"])
         else ("Bass", adj)) ∧
      specialize_bass_guitar_core "Guitar" adj =
        (if hasKeyword adj "acoustic" ∨ hasKeyword adj "nylon" then
           ("Acoustic Guitar", dropKeywords adj ["acoustic", "nylon"])
         else if hasKeyword adj "electric" then ("Electric Guitar", dropKeywords adj ["electric"])
         else ("Guitar", adj))) ∧
    normalize_instrument_phrase "Upright Bass" = ("Upright Bass", "") := by
  refine ⟨fun adj => ?_, by decide⟩
  by_cases hadj : adj = ""
  · subst hadj
    exact ⟨by decide, by decide⟩
  · have hgb : ¬ (("Guitar" : String) = "Bass") := by decide
    constructor
    · simp only [specialize_bass_guitar_core, if_neg hadj, eq_self_iff_true, if_true,
        splitWs_filter_ne adj, contains_map_any, hasKeyword,
        remove_words_drop adj ["Synth"] ["synth"] (by decide),
        remove_words_drop adj ["Upright"] ["upright"] (by decide),
        remove_words_drop adj ["Electric", "Guitar"] ["electric", "guitar"] (by decide)]
    · simp only [specialize_bass_guitar_core, if_neg hadj, if_neg hgb,
        eq_self_iff_true, if_true,
        splitWs_filter_ne adj, contains_map_any, hasKeyword,
        remove_words_drop adj ["Acoustic", "Nylon"] ["acoustic", "nylon"] (by decide),
        remove_words_drop adj ["Electric"] ["electric"] (by decide)]

/-! ## Claim C8 (corrected) -/

/-- Counterexample to C8 as stated: the non-empty, non-grammar input
`" X "` is not returned unchanged — `normalize_key` returns it with the
surrounding whitespace stripped. -/
theorem c8_counterexample :
    (" X " : String) ≠ "" ∧
    parseKey (pyStrip " X ") = none ∧
    normalize_key " X " = "X" ∧
    normalize_key " X " ≠ " X " := by
  refine ⟨by decide, by decide, by decide, by decide⟩

/-- C8 as amended: a non-empty input that does not match the key
grammar is returned stripped of surrounding whitespace (hence returned
identically whenever it carries none), and the function is total
(never raises). -/
theorem c8_non_matching_passthrough (s : String) (h : s ≠ "")
    (hp : parseKey (pyStrip s) = none) :
    normalize_key s = pyStrip s := by
  unfold normalize_key
  rw [if_neg h]
  simp only [hp]

/-- Witness for the amended C8 at the dash-free input `"hello"`, which
is returned identically. -/
theorem c8_non_matching_passthrough_witness :
    normalize_key "hello" = pyStrip "hello" ∧ pyStrip "hello" = "hello" :=
  ⟨c8_non_matching_passthrough "hello" (by decide) (by decide), by decide⟩

/-! ## Trimming lemmas -/

theorem dropWhile_dropWhile (p : α → Bool) (l : List α) :
    (l.dropWhile p).dropWhile p = l.dropWhile p := by
  rcases h : l.dropWhile p with _ | ⟨x, t⟩
  · rfl
  · have hx := List.head?_dropWhile_not p l
    rw [h] at hx
    simp only [List.head?_cons] at hx
    exact List.dropWhile_cons_of_neg (by simp [hx])

theorem rtrimL_rtrimL (l : List Char) : rtrimL (rtrimL l) = rtrimL l := by
  unfold rtrimL
  rw [List.reverse_reverse, dropWhile_dropWhile]

theorem rtrimL_prefix (l : List Char) : rtrimL l <+: l := by
  unfold rtrimL
  have h := List.dropWhile_suffix (l := l.reverse) isSpaceC
  have h2 := List.reverse_prefix.mpr h
  simpa using h2

theorem ltrimL_stripL (l : List Char) : ltrimL (stripL l) = stripL l := by
  unfold stripL
  rcases h : rtrimL (ltrimL l) with _ | ⟨a, t⟩
  · rfl
  · have hpre := rtrimL_prefix (ltrimL l)
    rw [h] at hpre
    obtain ⟨u, hu⟩ := hpre
    have hl : (l.dropWhile isSpaceC).head? = some a := by
      show (ltrimL l).head? = some a
      rw [← hu]
      simp
    have hx := List.head?_dropWhile_not isSpaceC l
    rw [hl] at hx
    simp only at hx
    exact List.dropWhile_cons_of_neg (by simp [hx])

theorem stripL_idem (l : List Char) : stripL (stripL l) = stripL l := by
  have h1 : stripL (stripL l) = rtrimL (stripL l) := by
    show rtrimL (ltrimL (stripL l)) = _
    rw [ltrimL_stripL]
  rw [h1]
  show rtrimL (rtrimL (ltrimL l)) = _
  rw [rtrimL_rtrimL]
  rfl

theorem stripL_ltrimL (l : List Char) : stripL (ltrimL l) = stripL l := by
  show rtrimL (ltrimL (ltrimL l)) = _
  unfold ltrimL
  rw [dropWhile_dropWhile]
  rfl

theorem pyStrip_pyStrip (s : String) : pyStrip (pyStrip s) = pyStrip s := by
  show String.mk (stripL (stripL s.data)) = _
  rw [stripL_idem]
  rfl

/-! ## First-dash lemmas -/

theorem ds1Go_no_dash (cs : List Char) :
    ∀ acc, '-' ∉ cs → ds1Go acc cs = [String.mk (acc.reverse ++ cs)] := by
  induction cs with
  | nil =>
    intro acc _
    simp [ds1Go]
  | cons c rest ih =>
    intro acc h
    have hc : ¬ c = '-' := fun he => h (he ▸ List.mem_cons_self c rest)
    have hr : '-' ∉ rest := fun hm => h (List.mem_cons_of_mem c hm)
    simp only [ds1Go, if_neg hc, ih (c :: acc) hr, List.reverse_cons, List.append_assoc,
      List.singleton_append]

theorem ds1Go_with_dash (cs : List Char) :
    ∀ acc, '-' ∈ cs →
      ∃ left t, cs.dropWhile (fun c => ¬ c = '-') = '-' :: t ∧
        ds1Go acc cs = [left, String.mk (t.dropWhile isSpaceC)] := by
  induction cs with
  | nil => intro acc h; cases h
  | cons c rest ih =>
    intro acc h
    by_cases hc : c = '-'
    · subst hc
      refine ⟨String.mk (acc.dropWhile isSpaceC).reverse, rest, ?_, ?_⟩
      · simp [List.dropWhile_cons]
      · simp [ds1Go]
    · have hr : '-' ∈ rest := by
        rcases List.mem_cons.mp h with he | hm
        · exact absurd he.symm hc
        · exact hm
      obtain ⟨left, t, h1, h2⟩ := ih (c :: acc) hr
      refine ⟨left, t, ?_, ?_⟩
      · rw [List.dropWhile_cons_of_pos (by simp [hc]), h1]
      · simp only [ds1Go, if_neg hc, h2]

/-! ## Claim C5 (corrected) -/

/-- Counterexample to C5 as stated: for the file `"Sunset - Lead.wav"`
in a folder whose composition name is `"Sun"`, the stem matches the
composition-name prefix, so the claim's rule isolates
`"set - Lead"`; the program isolates `"Lead"` (everything after the
first dash, the composition name being ignored). -/
theorem c5_counterexample :
    rawInstrumentPhrase "Sunset - Lead.wav" = "Lead" ∧
    claimRawPhrase "Sunset - Lead.wav" "Sun" = "set - Lead" ∧
    ("Lead" : String) ≠ "set - Lead" ∧
    guess_instrument_from_filename "Sunset - Lead.wav" "Sun" = ("Lead", "") := by
  exact ⟨by decide, by decide, by decide, by decide⟩

/-- C5 as amended: the raw instrument phrase is always everything after
the first dash separator of the stripped filename stem — the
composition name plays no part in the isolation — and the sentinel
`"Full"` is produced when there is no dash or nothing remains. -/
theorem c5_after_first_dash :
    (∀ filename c₁ c₂, guess_instrument_from_filename filename c₁ =
        guess_instrument_from_filename filename c₂) ∧
    (∀ filename, rawInstrumentPhrase filename =
        afterFirstDashSpec (pyStrip (pyStemOf filename))) := by
  constructor
  · intro filename c₁ c₂
    rfl
  · intro filename
    by_cases h : '-' ∈ (pyStrip (pyStemOf filename)).data
    · obtain ⟨left, t, h1, h2⟩ := ds1Go_with_dash _ [] h
      have hstr : pyStrip (String.mk (t.dropWhile isSpaceC)) = pyStrip (String.mk t) := by
        show String.mk (stripL (ltrimL t)) = String.mk (stripL t)
        rw [stripL_ltrimL]
      simp only [rawInstrumentPhrase, afterFirstDashSpec, dashSplit1, h2, h1, hstr]
    · have h3 : List.dropWhile (fun c => ¬ c = '-') (pyStrip (pyStemOf filename)).data = [] := by
        apply List.dropWhile_eq_nil_iff.mpr
        intro x hx
        have hne : ¬ x = '-' := fun he => h (he ▸ hx)
        simpa using hne
      simp only [rawInstrumentPhrase, afterFirstDashSpec, dashSplit1,
        ds1Go_no_dash _ [] h, h3]

/-! ## Key grammar shape and enumeration -/

theorem parseAcc_fst_mem (rest : List Char) : (parseAcc rest).1 ∈ accStrs := by
  rcases rest with _ | ⟨c, rs⟩
  · simp [parseAcc, accStrs]
  · simp only [parseAcc]
    by_cases hc : c = '#' ∨ c = 'b' ∨ c = 'B'
    · rw [if_pos hc]
      rcases hc with h | h | h <;> subst h <;> simp [accStrs]
    · rw [if_neg hc]
      simp [accStrs]

theorem parseKeyChars_shape (l : List Char) (r : Char) (a : String) (q : Option String)
    (h : parseKeyChars l = some (r, a, q)) :
    r ∈ rootChars ∧ a ∈ accStrs ∧ q ∈ qualOpts := by
  rcases l with _ | ⟨c, rest⟩
  · exact absurd h (by simp [parseKeyChars])
  · simp only [parseKeyChars] at h
    by_cases hr : c ∈ rootChars
    · rw [if_pos hr] at h
      rcases hrest : (parseAcc rest).2 with _ | ⟨d, ds⟩
      · rw [hrest] at h
        simp only [Option.some.injEq, Prod.mk.injEq] at h
        obtain ⟨h1, h2, h3⟩ := h
        subst h1; subst h2; subst h3
        exact ⟨hr, parseAcc_fst_mem rest, by simp [qualOpts]⟩
      · rw [hrest] at h
        by_cases hq : String.mk ((d :: ds).dropWhile isSpaceC) ∈ qualStrs
        · rw [if_pos hq] at h
          simp only [Option.some.injEq, Prod.mk.injEq] at h
          obtain ⟨h1, h2, h3⟩ := h
          subst h1; subst h2; subst h3
          refine ⟨hr, parseAcc_fst_mem rest, ?_⟩
          simp only [qualOpts, List.mem_cons]
          exact Or.inr (List.mem_map_of_mem some hq)
        · rw [if_neg hq] at h
          cases h
    · rw [if_neg hr] at h
      cases h

theorem keyAssemble_enum :
    (rootChars.all fun r => accStrs.all fun a => qualOpts.all fun q =>
      decide (normalize_key (keyAssemble r a q) = keyAssemble r a q) &&
      decide (keyAssemble r a q = keyNormSpec r a q)) = true := by
  decide

/-- On every triple of groups the grammar can produce, the assembled
key is a fixed point of `normalize_key` and agrees with the
specification-side normalization. -/
theorem keyAssemble_fixed (r : Char) (a : String) (q : Option String)
    (hr : r ∈ rootChars) (ha : a ∈ accStrs) (hq : q ∈ qualOpts) :
    normalize_key (keyAssemble r a q) = keyAssemble r a q ∧
    keyAssemble r a q = keyNormSpec r a q := by
  have h := keyAssemble_enum
  rw [List.all_eq_true] at h
  have h1 := h r hr
  rw [List.all_eq_true] at h1
  have h2 := h1 a ha
  rw [List.all_eq_true] at h2
  have h3 := h2 q hq
  rw [Bool.and_eq_true, decide_eq_true_eq, decide_eq_true_eq] at h3
  exact h3

theorem normalize_key_of_parse_none (s : String) (h : s ≠ "")
    (hp : parseKey (pyStrip s) = none) : normalize_key s = pyStrip s := by
  unfold normalize_key
  rw [if_neg h]
  simp only [hp]

theorem normalize_key_of_parse_some (s : String) (r : Char) (a : String)
    (q : Option String) (h : s ≠ "")
    (hp : parseKey (pyStrip s) = some (r, a, q)) :
    normalize_key s = keyAssemble r a q := by
  unfold normalize_key
  rw [if_neg h]
  simp only [hp]

/-! ## Claim C6 -/

/-- C6.  On every raw key string matching the key grammar,
`normalize_key` behaves exactly as the specification words it (root
upper-cased, `m`/`min` ⇒ `min`, `maj` or absent ⇒ `maj`, flats mapped
through the enharmonic table or dropped, sharps passed through), and in
particular `Abm ⇒ G#min`, `B ⇒ Bmaj`, `Dmin ⇒ Dmin`, `Ab ⇒ G#maj`. -/
theorem c6_key_semantics :
    (∀ (s : String) (r : Char) (a : String) (q : Option String),
      s ≠ "" → parseKey (pyStrip s) = some (r, a, q) →
      normalize_key s = keyNormSpec r a q) ∧
    normalize_key "Abm" = "G#min" ∧
    normalize_key "B" = "Bmaj" ∧
    normalize_key "Dmin" = "Dmin" ∧
    normalize_key "Ab" = "G#maj" := by
  refine ⟨?_, by decide, by decide, by decide, by decide⟩
  intro s r a q hs hp
  rw [normalize_key_of_parse_some s r a q hs hp]
  obtain ⟨hr, ha, hq⟩ := parseKeyChars_shape (pyStrip s).data r a q hp
  exact (keyAssemble_fixed r a q hr ha hq).2

/-- Witness for C6 at the grammar-matching input `"Abm"`. -/
theorem c6_key_semantics_witness :
    normalize_key "Abm" = keyNormSpec 'A' "b" (some "m") :=
  c6_key_semantics.1 "Abm" 'A' "b" (some "m") (by decide) (by decide)

/-! ## Claim C7 -/

/-- C7.  `normalize_key` is idempotent on every string. -/
theorem c7_key_idempotent (k : String) :
    normalize_key (normalize_key k) = normalize_key k := by
  by_cases hk : k = ""
  · subst hk
    rfl
  · rcases hp : parseKey (pyStrip k) with _ | ⟨r, a, q⟩
    · rw [normalize_key_of_parse_none k hk hp]
      by_cases h2 : pyStrip k = ""
      · rw [h2]
        rfl
      · rw [normalize_key_of_parse_none (pyStrip k) h2
          (by rw [pyStrip_pyStrip]; exact hp), pyStrip_pyStrip]
    · rw [normalize_key_of_parse_some k r a q hk hp]
      obtain ⟨hr, ha, hq⟩ := parseKeyChars_shape (pyStrip k).data r a q hp
      exact (keyAssemble_fixed r a q hr ha hq).1

/-! ## Claim C3: the priority-selection loop -/

theorem le_fst_of_mem_enumFrom (l : List α) :
    ∀ (n : Nat) (x : Nat × α), x ∈ l.enumFrom n → n ≤ x.1 := by
  induction l with
  | nil => intro n x h; cases h
  | cons a t ih =>
    intro n x h
    rw [List.enumFrom_cons] at h
    rcases List.mem_cons.mp h with he | hm
    · subst he
      exact le_refl n
    · exact le_trans (Nat.le_succ n) (ih (n + 1) x hm)

theorem pairwise_fst_lt_enumFrom (l : List α) :
    ∀ n : Nat, (l.enumFrom n).Pairwise (fun x y => x.1 < y.1) := by
  induction l with
  | nil => intro n; simp
  | cons a t ih =>
    intro n
    rw [List.enumFrom_cons]
    refine List.pairwise_cons.mpr ⟨?_, ih (n + 1)⟩
    intro x hx
    exact lt_of_lt_of_le (Nat.lt_succ_self n) (le_fst_of_mem_enumFrom t (n + 1) x hx)

theorem corePositions_pairwise (tokens : List String) :
    (corePositions tokens).Pairwise (fun x y => x.1 < y.1) := by
  unfold corePositions
  exact List.Pairwise.sublist (List.filter_sublist _)
    (List.enum_eq_enumFrom ▸ pairwise_fst_lt_enumFrom _ 0)

/-- Invariant of the `for i, c in core_positions` loop from a state that
already holds a candidate: the final choice has minimal priority, is the
rightmost among that priority, and the stored priority is the choice's
priority. -/
theorem pickFold (ps : List (Nat × String)) :
    ∀ i c, (∀ jd ∈ ps, i < jd.1) → ps.Pairwise (fun x y => x.1 < y.1) →
    ∃ j d, ps.foldl pickStep (some (i, c, corePriorityGet c)) =
        some (j, d, corePriorityGet d) ∧
      ((j, d) = (i, c) ∨ (j, d) ∈ ps) ∧
      corePriorityGet d ≤ corePriorityGet c ∧
      (∀ kd ∈ ps, corePriorityGet d ≤ corePriorityGet kd.2) ∧
      (corePriorityGet d = corePriorityGet c → i ≤ j) ∧
      (∀ kd ∈ ps, corePriorityGet kd.2 = corePriorityGet d → kd.1 ≤ j) := by
  induction ps with
  | nil =>
    intro i c _ _
    exact ⟨i, c, rfl, Or.inl rfl, le_refl _, by simp, fun _ => le_refl _, by simp⟩
  | cons a t ih =>
    intro i c hub hpair
    have hub_t : ∀ jd ∈ t, a.1 < jd.1 := (List.pairwise_cons.mp hpair).1
    have hpair_t := (List.pairwise_cons.mp hpair).2
    have hia : i < a.1 := hub a (List.mem_cons_self a t)
    rw [List.foldl_cons]
    by_cases h1 : corePriorityGet a.2 < corePriorityGet c
    · have hstep : pickStep (some (i, c, corePriorityGet c)) a =
          some (a.1, a.2, corePriorityGet a.2) := by
        simp [pickStep, h1]
      rw [hstep]
      obtain ⟨j, d, hfold, hmem, hle, hmin, hright, hrightall⟩ := ih a.1 a.2 hub_t hpair_t
      refine ⟨j, d, hfold, ?_, le_trans hle (le_of_lt h1), ?_, ?_, ?_⟩
      · rcases hmem with he | hm
        · right
          rw [he, Prod.mk.eta]
          exact List.mem_cons_self a t
        · exact Or.inr (List.mem_cons_of_mem a hm)
      · intro kd hkd
        rcases List.mem_cons.mp hkd with he | hm
        · subst he
          exact hle
        · exact hmin kd hm
      · intro heq
        exact absurd (lt_of_le_of_lt hle h1) (heq ▸ lt_irrefl _)
      · intro kd hkd hkeq
        rcases List.mem_cons.mp hkd with he | hm
        · subst he
          exact hright hkeq.symm
        · exact hrightall kd hm hkeq
    · by_cases h2 : corePriorityGet a.2 = corePriorityGet c
      · have hstep : pickStep (some (i, c, corePriorityGet c)) a =
            some (a.1, a.2, corePriorityGet a.2) := by
          simp [pickStep, h1, h2, hia]
        rw [hstep]
        obtain ⟨j, d, hfold, hmem, hle, hmin, hright, hrightall⟩ := ih a.1 a.2 hub_t hpair_t
        refine ⟨j, d, hfold, ?_, h2 ▸ hle, ?_, ?_, ?_⟩
        · rcases hmem with he | hm
          · right
            rw [he, Prod.mk.eta]
            exact List.mem_cons_self a t
          · exact Or.inr (List.mem_cons_of_mem a hm)
        · intro kd hkd
          rcases List.mem_cons.mp hkd with he | hm
          · subst he
            exact hle
          · exact hmin kd hm
        · intro heq
          have ha1j : a.1 ≤ j := hright (heq.trans h2.symm)
          exact le_trans (le_of_lt hia) ha1j
        · intro kd hkd hkeq
          rcases List.mem_cons.mp hkd with he | hm
          · subst he
            exact hright hkeq.symm
          · exact hrightall kd hm hkeq
      · have h3 : corePriorityGet c < corePriorityGet a.2 :=
          lt_of_le_of_ne (not_lt.mp h1) (Ne.symm h2)
        have hstep : pickStep (some (i, c, corePriorityGet c)) a =
            some (i, c, corePriorityGet c) := by
          simp [pickStep, h1, h2]
        rw [hstep]
        obtain ⟨j, d, hfold, hmem, hle, hmin, hright, hrightall⟩ :=
          ih i c (fun jd hjd => hub jd (List.mem_cons_of_mem a hjd)) hpair_t
        refine ⟨j, d, hfold, ?_, hle, ?_, hright, ?_⟩
        · rcases hmem with he | hm
          · exact Or.inl he
          · exact Or.inr (List.mem_cons_of_mem a hm)
        · intro kd hkd
          rcases List.mem_cons.mp hkd with he | hm
          · subst he
            exact le_of_lt (lt_of_le_of_lt hle h3)
          · exact hmin kd hm
        · intro kd hkd hkeq
          rcases List.mem_cons.mp hkd with he | hm
          · subst he
            exact absurd hkeq (ne_of_gt (lt_of_le_of_lt hle h3))
          · exact hrightall kd hm hkeq

/-- The selection loop as a whole: on a non-empty position list with
strictly increasing indices it picks a position of minimal priority,
rightmost among those of equal priority. -/
theorem pickCore_spec (ps : List (Nat × String)) (hps : ps ≠ [])
    (hpair : ps.Pairwise (fun x y => x.1 < y.1)) :
    ∃ i c, pickCore ps = some (i, c, corePriorityGet c) ∧ pickedRightmostMin ps i c := by
  rcases ps with _ | ⟨a, t⟩
  · exact absurd rfl hps
  · have hub_t : ∀ jd ∈ t, a.1 < jd.1 := (List.pairwise_cons.mp hpair).1
    have hpair_t := (List.pairwise_cons.mp hpair).2
    unfold pickCore
    rw [List.foldl_cons]
    have hstep : pickStep none a = some (a.1, a.2, corePriorityGet a.2) := rfl
    rw [hstep]
    obtain ⟨j, d, hfold, hmem, hle, hmin, hright, hrightall⟩ := pickFold t a.1 a.2 hub_t hpair_t
    refine ⟨j, d, hfold, ?_, ?_, ?_⟩
    · rcases hmem with he | hm
      · rw [he, Prod.mk.eta]
        exact List.mem_cons_self a t
      · exact List.mem_cons_of_mem a hm
    · intro kd hkd
      rcases List.mem_cons.mp hkd with he | hm
      · subst he
        exact hle
      · exact hmin kd hm
    · intro kd hkd hkeq
      rcases List.mem_cons.mp hkd with he | hm
      · subst he
        exact hright hkeq.symm
      · exact hrightall kd hm hkeq

/-- C3.  On every multi-token phrase that escapes the Electric-Piano
special case and has at least one core-bearing position, the classifier
picks the position of lowest priority (rightmost on ties) and hands the
title-cased join of the remaining tokens, as the pre-specialization
adjective, to the Bass/Guitar specialization; in particular
`"Guitar Bass"` ⇒ (`Electric Bass`, `""`) (core containing Bass, the
`Guitar` token consumed by specialization) and `"Lead Pad"` ⇒
(`Pad`, `"Lead"`). -/
theorem c3_priority_selection :
    (∀ phrase i c pr,
      epSearchStart (pyStrip (collapseWs phrase)) = none →
      2 ≤ (pySplitWs (pyStrip (collapseWs phrase))).length →
      pickCore (corePositions (pySplitWs (pyStrip (collapseWs phrase)))) = some (i, c, pr) →
      pickedRightmostMin (corePositions (pySplitWs (pyStrip (collapseWs phrase)))) i c ∧
      normalize_instrument_phrase phrase =
        specialize_bass_guitar_core c
          (titleJoin ((pySplitWs (pyStrip (collapseWs phrase))).eraseIdx i))) ∧
    normalize_instrument_phrase "Guitar Bass" = ("Electric Bass", "") ∧
    normalize_instrument_phrase "Lead Pad" = ("Pad", "Lead") := by
  refine ⟨?_, by decide, by decide⟩
  intro phrase i c pr hep hlen hpick
  have hne : corePositions (pySplitWs (pyStrip (collapseWs phrase))) ≠ [] := by
    intro h0
    rw [h0] at hpick
    simp [pickCore] at hpick
  obtain ⟨j, d, hfold, hprop⟩ := pickCore_spec _ hne (corePositions_pairwise _)
  rw [hpick] at hfold
  obtain ⟨h1, h2, h3⟩ : i = j ∧ c = d ∧ pr = corePriorityGet d := by
    simpa using hfold
  constructor
  · rw [h1, h2]
    exact hprop
  · rcases htoks : pySplitWs (pyStrip (collapseWs phrase)) with _ | ⟨t1, _ | ⟨t2, ts⟩⟩
    · rw [htoks] at hlen
      simp at hlen
    · rw [htoks] at hlen
      simp at hlen
    · rw [htoks] at hpick
      simp only [normalize_instrument_phrase, hep, htoks, hpick]

/-- Witness for C3 at the phrase `"Lead Pad"`. -/
theorem c3_priority_selection_witness :
    pickedRightmostMin (corePositions (pySplitWs (pyStrip (collapseWs "Lead Pad")))) 1 "Pad" ∧
    normalize_instrument_phrase "Lead Pad" =
      specialize_bass_guitar_core "Pad"
        (titleJoin ((pySplitWs (pyStrip (collapseWs "Lead Pad"))).eraseIdx 1)) :=
  c3_priority_selection.1 "Lead Pad" 1 "Pad" 2 (by decide) (by decide) (by decide)

/-! ## Claim C10: invariants of the multi-track descriptor -/

theorem collectSeen_aux_nodup (files : List String) :
    ∀ (comp : String) (seen : List String), seen.Nodup →
    (files.foldl
      (fun seen w =>
        let core := (guess_instrument_from_filename w comp).1
        if core = "Full" then seen
        else if seen.contains core then seen
        else seen ++ [core]) seen).Nodup := by
  induction files with
  | nil => intro comp seen h; exact h
  | cons f fs ih =>
    intro comp seen h
    rw [List.foldl_cons]
    apply ih
    dsimp only
    generalize (guess_instrument_from_filename f comp).1 = g
    by_cases h1 : g = "Full"
    · rw [if_pos h1]
      exact h
    · rw [if_neg h1]
      by_cases h2 : seen.contains g
      · rw [if_pos h2]
        exact h
      · rw [if_neg h2]
        refine List.Nodup.append h (List.nodup_singleton _) ?_
        intro x hx hx2
        rw [List.mem_singleton] at hx2
        subst hx2
        apply h2
        simpa using hx

theorem collectSeen_nodup (files : List String) (comp : String) :
    (collectSeenCores files comp).Nodup :=
  collectSeen_aux_nodup files comp [] List.nodup_nil

/-- C10.  The multi-track descriptor of every folder has length at most
3, no duplicates, at most one bass-family entry — only the
first-encountered bass-family core is kept, the other bass-family cores
are omitted entirely — and a bass-family entry, when present, is the
last element; the concrete folder with distinct cores
[Bass, Synth Bass, Guitar, Pad, Lead] keeps only the first bass core
and yields [Guitar, Pad, Bass]. -/
theorem c10_descriptor_invariants :
    (∀ (files : List String) (comp : String) (d seen : List String),
      d = folderMultiCores files comp → seen = collectSeenCores files comp →
      d.length ≤ 3 ∧ d.Nodup ∧
      (d.filter (fun c => isBassCore c)).length ≤ 1 ∧
      (∀ c ∈ d, isBassCore c = true →
        seen.find? (fun x => isBassCore x) = some c ∧ d.getLast? = some c)) ∧
    collectSeenCores ["01 - Bass.wav", "02 - Synth Bass.wav", "03 - Guitar.wav",
      "04 - Pad.wav", "05 - Lead.wav"] "Comp" =
      ["Bass", "Synth Bass", "Guitar", "Pad", "Lead"] ∧
    folderMultiCores ["01 - Bass.wav", "02 - Synth Bass.wav", "03 - Guitar.wav",
      "04 - Pad.wav", "05 - Lead.wav"] "Comp" = ["Guitar", "Pad", "Bass"] := by
  refine ⟨?_, by decide, by decide⟩
  intro files comp d seen hd hseen
  subst hd
  subst hseen
  have hnodup := collectSeen_nodup files comp
  have he : folderMultiCores files comp = multiSpecOf (collectSeenCores files comp) :=
    multiCoresOf_eq _
  rw [he]
  unfold multiSpecOf
  have hsub : List.Sublist
      (((collectSeenCores files comp).filter (fun c => ¬ isBassCore c)).take 2)
      (collectSeenCores files comp) :=
    (List.take_sublist _ _).trans (List.filter_sublist _)
  have hlen2 : (((collectSeenCores files comp).filter (fun c => ¬ isBassCore c)).take 2).length ≤ 2 := by
    rw [List.length_take]
    exact Nat.min_le_left _ _
  have hnb : ∀ x ∈ ((collectSeenCores files comp).filter (fun c => ¬ isBassCore c)).take 2,
      ¬ isBassCore x = true := by
    intro x hx
    have hxf := (List.take_sublist 2 _).subset hx
    have h2 := (List.mem_filter.mp hxf).2
    simpa using h2
  have hfilter : (((collectSeenCores files comp).filter (fun c => ¬ isBassCore c)).take 2).filter
      (fun c => isBassCore c) = [] := by
    rw [List.filter_eq_nil_iff]
    intro a ha
    simpa using hnb a ha
  cases hfb : (collectSeenCores files comp).find? (fun x => isBassCore x) with
  | none =>
    simp only [Option.toList, List.append_nil]
    refine ⟨le_trans hlen2 (by omega), hnodup.sublist hsub, ?_, ?_⟩
    · rw [hfilter]
      simp
    · intro c hc hbass
      exact absurd hbass (hnb c hc)
  | some b =>
    simp only [Option.toList]
    refine ⟨?_, ?_, ?_, ?_⟩
    · rw [List.length_append]
      simp only [List.length_singleton]
      omega
    · refine List.Nodup.append (hnodup.sublist hsub) (List.nodup_singleton b) ?_
      intro x hx hx2
      rw [List.mem_singleton] at hx2
      subst hx2
      have hxb := List.find?_some hfb
      exact hnb x hx hxb
    · rw [List.filter_append, hfilter]
      by_cases hb : isBassCore b = true <;> simp [hb]
    · intro c hc hbass
      rcases List.mem_append.mp hc with hc1 | hc2
      · exact absurd hbass (hnb c hc1)
      · rw [List.mem_singleton] at hc2
        subst hc2
        exact ⟨rfl, List.getLast?_concat _⟩

/-- Witness for C10 at the concrete five-file folder. -/
theorem c10_descriptor_invariants_witness :
    (["Guitar", "Pad", "Bass"] : List String).length ≤ 3 ∧
    (["Guitar", "Pad", "Bass"] : List String).Nodup ∧
    ((["Guitar", "Pad", "Bass"] : List String).filter (fun c => isBassCore c)).length ≤ 1 ∧
    (∀ c ∈ (["Guitar", "Pad", "Bass"] : List String), isBassCore c = true →
      (["Bass", "Synth Bass", "Guitar", "Pad", "Lead"] : List String).find?
        (fun x => isBassCore x) = some c ∧
      (["Guitar", "Pad", "Bass"] : List String).getLast? = some c) :=
  c10_descriptor_invariants.1
    ["01 - Bass.wav", "02 - Synth Bass.wav", "03 - Guitar.wav",
      "04 - Pad.wav", "05 - Lead.wav"] "Comp"
    ["Guitar", "Pad", "Bass"] ["Bass", "Synth Bass", "Guitar", "Pad", "Lead"]
    (by decide) (by decide)
